import Mathlib

/-!
Verification of the logo analyzer (src/functions.py, src/main.py).

The Python source is shallowly embedded below. Conventions used throughout:

- pixel values, RGB components and warmth weights are integers (`ℤ` / `ℕ`);
- similarity scores and histogram entries are exact rationals (`ℚ`), standing
  for the floating-point doubles of the source; every comparison the claims
  exercise is far from the rounding error of doubles, so the exact model and
  the float computation decide each branch the same way;
- file names, hash strings and color names are `String`s;
- the file system and the network are abstracted into explicit inputs: a list
  of (hash, path) events for the download phase, an oracle
  `String → String → Except String ℚ` for pairwise histogram comparison (an
  `Except.error` models any raised exception, including a file vanishing
  under a concurrent move);
- the two thread pools execute independent tasks whose only interaction is
  modelled by the inputs above; the embedding runs the submitted tasks
  sequentially in submission order, and the one shared structure (the hash
  registry, mutated under a lock) is a fold over its serialized events.
-/

namespace LogoAnalyzer

/-- The fixed broad-color palette, in the iteration order of the Python dict
`BROAD_COLORS` (insertion order: Red, Orange, Yellow, Green, Blue, White,
Black), from functions.py. -/
def BROAD_COLORS : List (String × (ℤ × ℤ × ℤ)) :=
  [("Red", (220, 20, 60)),
   ("Orange", (255, 165, 0)),
   ("Yellow", (255, 255, 0)),
   ("Green", (34, 139, 34)),
   ("Blue", (30, 144, 255)),
   ("White", (255, 255, 255)),
   ("Black", (0, 0, 0))]

/-- The fixed warmth weights, the Python dict `COLOR_WARMTH` from
functions.py. -/
def COLOR_WARMTH : List (String × ℤ) :=
  [("Red", 1), ("Orange", 1), ("Yellow", 1),
   ("Green", -1), ("Blue", -1), ("White", 0), ("Black", 0)]

/-- Python `COLOR_WARMTH[color]`; every key ever looked up comes from
`closest_broad_color`, whose results are all present in the dict, so the
`getD 0` default is never consulted. -/
def warmth (c : String) : ℤ := (COLOR_WARMTH.lookup c).getD 0

/-- Squared Euclidean distance between two RGB triples.  The source
(`closest_broad_color` in functions.py) compares
`np.sqrt(sum((rgb[i]-color_rgb[i])**2 for i in range(3)))` values with `<`;
the square root is strictly monotone on nonnegative reals, so comparisons
(and ties) of the source's distances coincide with comparisons of these
squared distances. -/
def dist2 (p q : ℤ × ℤ × ℤ) : ℤ :=
  (p.1 - q.1) ^ 2 + (p.2.1 - q.2.1) ^ 2 + (p.2.2 - q.2.2) ^ 2

/-- One iteration of the loop body of `closest_broad_color` (functions.py):
the running state is `none` for the initial
`min_distance = inf, closest_color = None` (every real distance is `< inf`,
so the first entry always replaces it), else `some (name, squared distance)`;
an entry strictly closer than the current minimum replaces it. -/
def broadStep (rgb : ℤ × ℤ × ℤ) (acc : Option (String × ℤ))
    (entry : String × (ℤ × ℤ × ℤ)) : Option (String × ℤ) :=
  match acc with
  | none => some (entry.1, dist2 rgb entry.2)
  | some best =>
      if dist2 rgb entry.2 < best.2 then some (entry.1, dist2 rgb entry.2)
      else some best

/-- `closest_broad_color` from functions.py: iterate over `BROAD_COLORS`
keeping the strictly closest entry seen so far, return its name. -/
def closest_broad_color (rgb : ℤ × ℤ × ℤ) : Option String :=
  (BROAD_COLORS.foldl (broadStep rgb) none).map Prod.fst

/-- Recursive form of the selection loop of `closest_broad_color` once the
state holds a candidate `best = (name, squared distance)`; used to reason
about the fold. -/
def firstStrictMin (rgb : ℤ × ℤ × ℤ) (best : String × ℤ) :
    List (String × (ℤ × ℤ × ℤ)) → String × ℤ
  | [] => best
  | entry :: l =>
      if dist2 rgb entry.2 < best.2 then
        firstStrictMin rgb (entry.1, dist2 rgb entry.2) l
      else firstStrictMin rgb best l

/-- Total wrapper for `closest_broad_color`: the Python function always
returns one of the seven names (the palette is nonempty, proved below), so
the `getD` default is never consulted; this gives the `String`-valued
function the rest of functions.py calls. -/
def closestB (rgb : ℤ × ℤ × ℤ) : String := (closest_broad_color rgb).getD "Black"

/-- The list of broad-color buckets of a list of cluster colors:
`closest_broad_color(tuple(rgb)) for rgb in rgb_colors`, shared by
`describe_logo_colors` and `analyze_emotion` (functions.py). -/
def broad_buckets (colors : List (ℤ × ℤ × ℤ)) : List String :=
  colors.map closestB

/-- The distinct bucket names of `Counter(...)` over the buckets.  Python's
`Counter.most_common(8)` returns up to 8 (key, count) pairs ordered by
decreasing count; the code below only ever uses the set of keys and its
size, for which the ordering is irrelevant, so the keys are modelled as
`dedup` of the bucket list followed by the `take 8` cap. -/
def bucketGroups (colors : List (ℤ × ℤ × ℤ)) : List String :=
  (broad_buckets colors).dedup.take 8

/-- `describe_logo_colors` from functions.py: build the bucket counter, take
`most_common(8)`, return whether at most two groups exist. -/
def describe_logo_colors (colors : List (ℤ × ℤ × ℤ)) : Bool :=
  decide ((bucketGroups colors).length ≤ 2)

/-- `analyze_emotion` from functions.py, at the level of the extracted
cluster colors: bucket counter, `most_common(8)`, warmth-weighted sum of the
counts divided by the number of groups, then the if/elif label bands.  The
division is exact rational division (`x / 0 = 0` in `ℚ`; Python would raise
on an empty color list, so the claims are settled for nonempty inputs). -/
def analyze_emotion (colors : List (ℤ × ℤ × ℤ)) : String :=
  let buckets := broad_buckets colors
  let groups := bucketGroups colors
  let warmth_score : ℚ :=
    (((groups.map (fun c => warmth c * (buckets.count c : ℤ))).sum : ℤ) : ℚ) /
      (groups.length : ℚ)
  if warmth_score > 1 / 2 then "Energetic & Passionate"
  else if warmth_score > 0 then "Warm & Friendly"
  else if warmth_score < -(1 / 2) then "Cool & Professional"
  else if warmth_score < 0 then "Calm & Trustworthy"
  else "Balanced & Neutral"

/-- The spec's wording of `classifyEmotion(colors)` (refinement target for
the claim about `analyze_emotion`): weight each distinct broad-color bucket
present by its fixed warmth score, average by the number of distinct buckets
present (no cap), and map through the threshold bands >0.5, >0, <-0.5, <0,
else neutral. -/
def classifyEmotion (colors : List (ℤ × ℤ × ℤ)) : String :=
  let buckets := broad_buckets colors
  let distinct := buckets.dedup
  let score : ℚ :=
    (((distinct.map (fun c => warmth c * (buckets.count c : ℤ))).sum : ℤ) : ℚ) /
      (distinct.length : ℚ)
  if score > 1 / 2 then "Energetic & Passionate"
  else if score > 0 then "Warm & Friendly"
  else if score < -(1 / 2) then "Cool & Professional"
  else if score < 0 then "Calm & Trustworthy"
  else "Balanced & Neutral"

/-- `extract_brand` from functions.py: `domain.split(".")[0]` is the prefix
of the string before its first '.', and `re.split(r"[-_]", ...)[0]` the
prefix before the first dash or underscore; both are computed on the
character list of the string. -/
def extract_brand (domain : String) : String :=
  String.mk
    ((domain.data.takeWhile (fun c => c ≠ '.')).takeWhile
      (fun c => ¬(c = '-' ∨ c = '_')))

/-- One step of the brand grouping loop in `download_logos` (main.py):
`brand_dict[extract_brand(domain)].append(domain)` on a `defaultdict(list)`,
which appends to the existing group when the brand is already a key and
otherwise adds a new key at the end (dict insertion order). -/
def add_domain (acc : List (String × List String)) (d : String) :
    List (String × List String) :=
  if acc.any (fun g => g.1 = extract_brand d) then
    acc.map (fun g => if g.1 = extract_brand d then (g.1, g.2 ++ [d]) else g)
  else acc ++ [(extract_brand d, [d])]

/-- The brand dictionary built by `download_logos` over the input domains. -/
def brand_groups (domains : List String) : List (String × List String) :=
  domains.foldl add_domain []

/-- `selected_domains = [domains[0] for domains in brand_dict.values()]`
(main.py): the first-seen domain of every brand, in brand first-appearance
order.  Each group is created nonempty, so the `headD ""` default is never
consulted. -/
def select_domains (domains : List String) : List String :=
  (brand_groups domains).map (fun g => g.2.headD "")

/-- The spec's wording of the pre-fetch selection (refinement target for the
claim about `select_domains`): walk the domains in order keeping a domain
exactly when its brand has not been seen yet, so only the first-seen domain
of each brand is retained. -/
def first_seen_go (seen : List String) : List String → List String
  | [] => []
  | d :: ds =>
      if extract_brand d ∈ seen then first_seen_go seen ds
      else d :: first_seen_go (extract_brand d :: seen) ds

/-- `dhash` from functions.py, at the level of the resized grayscale image:
`pixel x y` is the luminance at column x, row y of the
`(hash_size+1) × hash_size` image produced by
`convert("L").resize((hash_size+1, hash_size), LANCZOS)` (columns
0..hash_size, rows 0..hash_size-1).  The Python list comprehension iterates
y outer, x inner, comparing `getpixel((x, y)) > getpixel((x+1, y))` and
emitting '1'/'0'. -/
def dhash (pixel : ℕ → ℕ → ℕ) (hash_size : ℕ) : String :=
  String.mk
    (((List.range hash_size).map (fun y =>
        (List.range hash_size).map (fun x =>
          if pixel x y > pixel (x + 1) y then '1' else '0'))).flatten)

/-- `cv2.normalize(h, h, 0, 255, NORM_MINMAX)` on a flattened histogram:
each value v becomes `(v - min) * (255 / (max - min))`; when max = min
OpenCV uses scale 0, which the rational convention `x / 0 = 0` reproduces
exactly. -/
def normalize_min_max (h : List ℚ) : List ℚ :=
  match h.min?, h.max? with
  | some mn, some mx => h.map (fun v => (v - mn) * (255 / (mx - mn)))
  | _, _ => []

/-- `cv2.compareHist(h1, h2, HISTCMP_CORREL)`: with
`n = total`, `num = s12 - s1*s2/n` and
`denom2 = (s11 - s1*s1/n) * (s22 - s2*s2/n)`, OpenCV returns
`num / sqrt(denom2)` when `|denom2| > DBL_EPSILON` and 1 otherwise.  The
epsilon guard is modelled as the exact test `denom2 = 0`, and the square
root as `Rat.sqrt`, which agrees with the real square root whenever its
argument is the square of a rational - the only case the proofs below
evaluate it at. -/
def compareHist_correl (h1 h2 : List ℚ) : ℚ :=
  let n : ℚ := (h1.length : ℚ)
  let s1 := h1.sum
  let s2 := h2.sum
  let s11 := (h1.map (fun v => v * v)).sum
  let s22 := (h2.map (fun v => v * v)).sum
  let s12 := (List.zipWith (fun a b => a * b) h1 h2).sum
  let num := s12 - s1 * s2 / n
  let denom2 := (s11 - s1 * s1 / n) * (s22 - s2 * s2 / n)
  if denom2 = 0 then 1 else num / Rat.sqrt denom2

/-- `calculate_histogram_similarity` from functions.py, at the level of the
two decoded images' flattened HSV histograms: min-max normalize both,
correlate, remap `(corr + 1) / 2 * 100`. -/
def calculate_histogram_similarity (hist1 hist2 : List ℚ) : ℚ :=
  (compareHist_correl (normalize_min_max hist1) (normalize_min_max hist2) + 1)
    / 2 * 100

/-- One `process_logo` call (main.py) that reached the locked
check-and-insert, as a transition on (registry, kept files): the event is
the (hash string, file path) of a successfully downloaded and hashed image.
If the hash is already registered the new file is deleted (not kept);
otherwise the registry records this path as the canonical holder and the
file is kept.  The lock serializes these transitions, so a download run is a
fold over the serialized event list. -/
def process_logo (st : List (String × String) × List (String × String))
    (ev : String × String) :
    List (String × String) × List (String × String) :=
  match st.1.lookup ev.1 with
  | some _ => st
  | none => (ev :: st.1, ev :: st.2)

/-- The exact-dedup phase of a download run: fold `process_logo` over the
serialized (hash, path) events, starting from the empty registry; returns
(final registry, kept files with their hashes). -/
def run_dedup (events : List (String × String)) :
    List (String × String) × List (String × String) :=
  events.foldl process_logo ([], [])

/-- Python `filename[:3]`: the first 3 characters (computed on the character
list of the string). -/
def take3 (s : String) : String := String.mk (s.data.take 3)

/-- A comparison oracle: what `functions.calculate_histogram_similarity`
does for a given pair of file names at the moment the task runs -
`Except.ok score`, or `Except.error` for any raised exception (unreadable
image, or a file moved away by a concurrent task). -/
def SimOracle : Type := String → String → Except String ℚ

/-- `check_similarity` from `move_similar_logos` (main.py): compute the
similarity inside `try`; on a score > 49 with matching 3-character filename
prefixes, move the second file to the duplicates folder (`some image2`);
any exception is swallowed by `except: pass` (`none`, the pair is
skipped). -/
def check_similarity (sim : SimOracle) (image1 image2 : String) :
    Option String :=
  match sim image1 image2 with
  | Except.error _ => none
  | Except.ok similarity =>
      if similarity > 49 ∧ take3 image1 = take3 image2 then some image2
      else none

/-- The pairs submitted by the double loop of `move_similar_logos` (main.py),
in submission order: for each `file1` not in `checked_files`, one task per
later `file2`, then `file1` is added to `checked_files`. -/
def msl_pairs (checked : List String) : List String → List (String × String)
  | [] => []
  | f :: rest =>
      if f ∈ checked then msl_pairs checked rest
      else rest.map (fun g => (f, g)) ++ msl_pairs (f :: checked) rest

/-- The near-dedup phase `move_similar_logos` (main.py): run
`check_similarity` over every submitted pair and collect the files moved to
the duplicates folder.  The worker pool only adds interleaving, which the
oracle `sim` already abstracts (each task sees the filesystem at its own
execution time). -/
def move_similar_logos (sim : SimOracle) (files : List String) : List String :=
  (msl_pairs [] files).filterMap (fun p => check_similarity sim p.1 p.2)

/-! Lemmas about the broad-color selection loop. -/

/-- The fold of `broadStep` from a `some` state is `firstStrictMin`. -/
theorem foldl_broadStep (rgb : ℤ × ℤ × ℤ) :
    ∀ (l : List (String × (ℤ × ℤ × ℤ))) (best : String × ℤ),
      l.foldl (broadStep rgb) (some best) = some (firstStrictMin rgb best l) := by
  intro l
  induction l with
  | nil => intro best; rfl
  | cons e t ih =>
      intro best
      simp only [List.foldl_cons, broadStep, firstStrictMin]
      by_cases h : dist2 rgb e.2 < best.2
      · rw [if_pos h, if_pos h, ih]
      · rw [if_neg h, if_neg h, ih]

/-- The selected squared distance is minimal: at most the starting one and at
most every scanned entry's. -/
theorem firstStrictMin_le (rgb : ℤ × ℤ × ℤ) :
    ∀ (l : List (String × (ℤ × ℤ × ℤ))) (best : String × ℤ),
      (firstStrictMin rgb best l).2 ≤ best.2 ∧
        ∀ e ∈ l, (firstStrictMin rgb best l).2 ≤ dist2 rgb e.2 := by
  intro l
  induction l with
  | nil => intro best; exact ⟨le_refl _, by intro e he; cases he⟩
  | cons e t ih =>
      intro best
      simp only [firstStrictMin]
      by_cases h : dist2 rgb e.2 < best.2
      · rw [if_pos h]
        obtain ⟨h1, h2⟩ := ih (e.1, dist2 rgb e.2)
        refine ⟨le_trans h1 (le_of_lt h), ?_⟩
        intro e' he'
        rcases List.mem_cons.mp he' with he' | he'
        · subst he'; exact h1
        · exact h2 e' he'
      · rw [if_neg h]
        obtain ⟨h1, h2⟩ := ih best
        refine ⟨h1, ?_⟩
        intro e' he'
        rcases List.mem_cons.mp he' with he' | he'
        · subst he'; exact le_trans h1 (le_of_not_lt h)
        · exact h2 e' he'

/-- Characterization of the selection: either nothing scanned strictly beat
the starting candidate, or the result is the earliest entry that is strictly
closer than everything before it (ties keep the earlier entry, since only a
strictly smaller distance replaces the running minimum). -/
theorem firstStrictMin_char (rgb : ℤ × ℤ × ℤ) :
    ∀ (l : List (String × (ℤ × ℤ × ℤ))) (best : String × ℤ),
      (firstStrictMin rgb best l = best ∧ ∀ e ∈ l, best.2 ≤ dist2 rgb e.2) ∨
        (∃ (i : ℕ) (e : String × (ℤ × ℤ × ℤ)), l[i]? = some e ∧
          firstStrictMin rgb best l = (e.1, dist2 rgb e.2) ∧
          dist2 rgb e.2 < best.2 ∧
          ∀ (j : ℕ) (e' : String × (ℤ × ℤ × ℤ)), j < i → l[j]? = some e' →
            dist2 rgb e.2 < dist2 rgb e'.2) := by
  intro l
  induction l with
  | nil => intro best; exact Or.inl ⟨rfl, by intro e he; cases he⟩
  | cons e t ih =>
      intro best
      simp only [firstStrictMin]
      by_cases h : dist2 rgb e.2 < best.2
      · rw [if_pos h]
        rcases ih (e.1, dist2 rgb e.2) with ⟨heq, hall⟩ | ⟨i, e', hget, heq, hlt, hbef⟩
        · refine Or.inr ⟨0, e, by simp, heq, h, ?_⟩
          intro j e' hj
          omega
        · refine Or.inr ⟨i + 1, e', by simpa using hget, heq, lt_trans hlt h, ?_⟩
          intro j q hjlt hq
          cases j with
          | zero =>
              have hq' : q = e := by
                simp only [List.getElem?_cons_zero] at hq
                exact (Option.some.inj hq).symm
              subst hq'
              exact hlt
          | succ j =>
              simp only [List.getElem?_cons_succ] at hq
              exact hbef j q (by omega) hq
      · rw [if_neg h]
        rcases ih best with ⟨heq, hall⟩ | ⟨i, e', hget, heq, hlt, hbef⟩
        · refine Or.inl ⟨heq, ?_⟩
          intro e' he'
          rcases List.mem_cons.mp he' with he' | he'
          · subst he'; exact le_of_not_lt h
          · exact hall e' he'
        · refine Or.inr ⟨i + 1, e', by simpa using hget, heq, hlt, ?_⟩
          intro j q hjlt hq
          cases j with
          | zero =>
              have hq' : q = e := by
                simp only [List.getElem?_cons_zero] at hq
                exact (Option.some.inj hq).symm
              subst hq'
              exact lt_of_lt_of_le hlt (le_of_not_lt h)
          | succ j =>
              simp only [List.getElem?_cons_succ] at hq
              exact hbef j q (by omega) hq

/-- The selected name is the starting candidate's or one scanned in the
list. -/
theorem firstStrictMin_name_mem (rgb : ℤ × ℤ × ℤ) :
    ∀ (l : List (String × (ℤ × ℤ × ℤ))) (best : String × ℤ),
      (firstStrictMin rgb best l).1 = best.1 ∨
        (firstStrictMin rgb best l).1 ∈ l.map Prod.fst := by
  intro l
  induction l with
  | nil => intro best; exact Or.inl rfl
  | cons e t ih =>
      intro best
      simp only [firstStrictMin]
      by_cases h : dist2 rgb e.2 < best.2
      · rw [if_pos h]
        rcases ih (e.1, dist2 rgb e.2) with h1 | h1
        · exact Or.inr (by rw [h1]; exact List.mem_cons_self _ _)
        · exact Or.inr (List.mem_cons_of_mem _ h1)
      · rw [if_neg h]
        rcases ih best with h1 | h1
        · exact Or.inl h1
        · exact Or.inr (List.mem_cons_of_mem _ h1)

/-- The full selection over a nonempty palette list: the returned name is the
name of some entry (index i), that entry's squared distance is minimal over
the whole list, and every entry listed before index i is at strictly greater
distance. -/
theorem broad_fold_spec (rgb : ℤ × ℤ × ℤ) (hd : String × (ℤ × ℤ × ℤ))
    (tl : List (String × (ℤ × ℤ × ℤ))) :
    ∃ (i : ℕ) (entry : String × (ℤ × ℤ × ℤ)), (hd :: tl)[i]? = some entry ∧
      (((hd :: tl).foldl (broadStep rgb) none).map Prod.fst = some entry.1) ∧
      (∀ (j : ℕ) (e' : String × (ℤ × ℤ × ℤ)), (hd :: tl)[j]? = some e' →
        dist2 rgb entry.2 ≤ dist2 rgb e'.2) ∧
      (∀ (j : ℕ) (e' : String × (ℤ × ℤ × ℤ)), j < i → (hd :: tl)[j]? = some e' →
        dist2 rgb entry.2 < dist2 rgb e'.2) := by
  have hfold : ((hd :: tl).foldl (broadStep rgb) none).map Prod.fst =
      some (firstStrictMin rgb (hd.1, dist2 rgb hd.2) tl).1 := by
    rw [List.foldl_cons]
    show ((tl.foldl (broadStep rgb) (some (hd.1, dist2 rgb hd.2))).map Prod.fst) = _
    rw [foldl_broadStep]
    rfl
  rcases firstStrictMin_char rgb tl (hd.1, dist2 rgb hd.2)
    with ⟨heq, hall⟩ | ⟨i, e, hget, heq, hlt, hbef⟩
  · refine ⟨0, hd, by simp, ?_, ?_, ?_⟩
    · rw [hfold, heq]
    · intro j e' hj
      cases j with
      | zero =>
          have : e' = hd := by
            simp only [List.getElem?_cons_zero] at hj
            exact (Option.some.inj hj).symm
          subst this
          exact le_refl _
      | succ j =>
          rw [List.getElem?_cons_succ] at hj
          exact hall e' (List.getElem?_mem hj)
    · intro j e' hjlt
      omega
  · refine ⟨i + 1, e, by simpa using hget, ?_, ?_, ?_⟩
    · rw [hfold, heq]
    · intro j e' hj
      have hres : (firstStrictMin rgb (hd.1, dist2 rgb hd.2) tl).2 =
          dist2 rgb e.2 := by rw [heq]
      cases j with
      | zero =>
          have : e' = hd := by
            simp only [List.getElem?_cons_zero] at hj
            exact (Option.some.inj hj).symm
          subst this
          exact le_of_lt hlt
      | succ j =>
          rw [List.getElem?_cons_succ] at hj
          have := (firstStrictMin_le rgb tl (hd.1, dist2 rgb hd.2)).2 e'
            (List.getElem?_mem hj)
          rw [hres] at this
          exact this
    · intro j e' hjlt hj
      cases j with
      | zero =>
          have : e' = hd := by
            simp only [List.getElem?_cons_zero] at hj
            exact (Option.some.inj hj).symm
          subst this
          exact hlt
      | succ j =>
          rw [List.getElem?_cons_succ] at hj
          exact hbef j e' (by omega) hj

/-- C8: closest_broad_color is total: for every RGB triple in [0,255]³ it
returns exactly one of the 7 fixed categories (the name of some palette
entry, at some index i), that entry's distance is minimal over the whole
palette, and every palette entry listed before it is at strictly greater
distance - so when two entries are at equal Euclidean distance from the
input, the category appearing earlier in the fixed palette's iteration
order is the one returned. -/
theorem closest_broad_color_total_tiebreak (r g b : ℤ)
    (hr0 : 0 ≤ r) (hr1 : r ≤ 255) (hg0 : 0 ≤ g) (hg1 : g ≤ 255)
    (hb0 : 0 ≤ b) (hb1 : b ≤ 255) :
    ∃ (i : ℕ) (entry : String × (ℤ × ℤ × ℤ)), BROAD_COLORS[i]? = some entry ∧
      closest_broad_color (r, g, b) = some entry.1 ∧
      (∀ (j : ℕ) (e' : String × (ℤ × ℤ × ℤ)), BROAD_COLORS[j]? = some e' →
        dist2 (r, g, b) entry.2 ≤ dist2 (r, g, b) e'.2) ∧
      (∀ (j : ℕ) (e' : String × (ℤ × ℤ × ℤ)), j < i → BROAD_COLORS[j]? = some e' →
        dist2 (r, g, b) entry.2 < dist2 (r, g, b) e'.2) :=
  broad_fold_spec (r, g, b) ("Red", (220, 20, 60))
    [("Orange", (255, 165, 0)), ("Yellow", (255, 255, 0)),
     ("Green", (34, 139, 34)), ("Blue", (30, 144, 255)),
     ("White", (255, 255, 255)), ("Black", (0, 0, 0))]

/-- Witness for C8 at the concrete triple (100, 150, 200). -/
theorem closest_broad_color_total_tiebreak_witness :
    ∃ (i : ℕ) (entry : String × (ℤ × ℤ × ℤ)), BROAD_COLORS[i]? = some entry ∧
      closest_broad_color (100, 150, 200) = some entry.1 ∧
      (∀ (j : ℕ) (e' : String × (ℤ × ℤ × ℤ)), BROAD_COLORS[j]? = some e' →
        dist2 (100, 150, 200) entry.2 ≤ dist2 (100, 150, 200) e'.2) ∧
      (∀ (j : ℕ) (e' : String × (ℤ × ℤ × ℤ)), j < i → BROAD_COLORS[j]? = some e' →
        dist2 (100, 150, 200) entry.2 < dist2 (100, 150, 200) e'.2) :=
  closest_broad_color_total_tiebreak 100 150 200 (by decide) (by decide)
    (by decide) (by decide) (by decide) (by decide)

/-! Lemmas about the bucket classifiers. -/

/-- Each bucket name is one of the seven palette names. -/
theorem closestB_mem (rgb : ℤ × ℤ × ℤ) :
    closestB rgb ∈ ["Red", "Orange", "Yellow", "Green", "Blue", "White", "Black"] := by
  obtain ⟨i, entry, hget, hc, -, -⟩ := broad_fold_spec rgb ("Red", (220, 20, 60))
    [("Orange", (255, 165, 0)), ("Yellow", (255, 255, 0)),
     ("Green", (34, 139, 34)), ("Blue", (30, 144, 255)),
     ("White", (255, 255, 255)), ("Black", (0, 0, 0))]
  have hcc : closest_broad_color rgb = some entry.1 := hc
  have hmem : entry ∈ BROAD_COLORS := List.getElem?_mem hget
  have hB : closestB rgb = entry.1 := by rw [closestB, hcc]; rfl
  rw [hB]
  fin_cases hmem <;> simp

/-- At most 7 distinct bucket names ever occur. -/
theorem broad_buckets_dedup_le (colors : List (ℤ × ℤ × ℤ)) :
    (broad_buckets colors).dedup.length ≤ 7 := by
  have hsub : (broad_buckets colors).dedup ⊆
      ["Red", "Orange", "Yellow", "Green", "Blue", "White", "Black"] := by
    intro x hx
    rw [List.mem_dedup] at hx
    obtain ⟨rgb, hrgb, rfl⟩ := List.mem_map.mp hx
    exact closestB_mem rgb
  have h := ((List.nodup_dedup (broad_buckets colors)).subperm hsub).length_le
  simpa using h

/-- `most_common(8)` returns every distinct bucket: fewer than 8 exist. -/
theorem bucketGroups_eq (colors : List (ℤ × ℤ × ℤ)) :
    bucketGroups colors = (broad_buckets colors).dedup := by
  rw [bucketGroups]
  exact List.take_of_length_le (le_trans (broad_buckets_dedup_le colors) (by norm_num))

/-- C6: the minimalism classifier returns true if and only if the number of
distinct broad-color buckets among the (top 8) clusters is at most 2; in
particular 5 clusters spanning 2 distinct broad colors yield true and 5
clusters spanning 4 distinct broad colors yield false. -/
theorem describe_logo_colors_spec :
    (∀ colors : List (ℤ × ℤ × ℤ),
      describe_logo_colors colors = true ↔
        (broad_buckets colors).dedup.length ≤ 2) ∧
    describe_logo_colors
      [(220, 20, 60), (219, 21, 59), (0, 0, 0), (1, 1, 2), (3, 3, 3)] = true ∧
    describe_logo_colors
      [(220, 20, 60), (220, 20, 60), (255, 165, 0), (255, 255, 0),
       (34, 139, 34)] = false := by
  refine ⟨?_, by decide, by decide⟩
  intro colors
  simp only [describe_logo_colors, bucketGroups_eq, decide_eq_true_eq]

/-- C4: the emotion classifier computes exactly the spec's classifyEmotion:
weight each broad-color bucket by the fixed warmth score, average by the
number of distinct buckets present, and map the score through the threshold
bands >0.5, >0, <-0.5, <0, else neutral. -/
theorem analyze_emotion_eq_classifyEmotion (colors : List (ℤ × ℤ × ℤ))
    (h : colors ≠ []) : analyze_emotion colors = classifyEmotion colors := by
  simp only [analyze_emotion, classifyEmotion, bucketGroups_eq]

/-- Witness for C4 at the five palette-exact cluster colors of a warm logo. -/
theorem analyze_emotion_eq_classifyEmotion_witness :
    analyze_emotion
        [(220, 20, 60), (255, 165, 0), (255, 255, 0), (34, 139, 34),
         (30, 144, 255)] =
      classifyEmotion
        [(220, 20, 60), (255, 165, 0), (255, 255, 0), (34, 139, 34),
         (30, 144, 255)] :=
  analyze_emotion_eq_classifyEmotion
    [(220, 20, 60), (255, 165, 0), (255, 255, 0), (34, 139, 34),
     (30, 144, 255)] (by decide)

/-! Lemmas about the exact-dedup registry. -/

/-- The registry lookup after a run extends the starting registry by the
first event carrying each new hash. -/
theorem foldl_process_logo_lookup :
    ∀ (events : List (String × String)) (reg kept : List (String × String))
      (h : String),
      ((events.foldl process_logo (reg, kept)).1).lookup h =
        (reg.lookup h).or ((events.find? (fun e => e.1 == h)).map Prod.snd) := by
  intro events
  induction events with
  | nil => intro reg kept h; simp
  | cons ev evs ih =>
      obtain ⟨k, pth⟩ := ev
      intro reg kept h
      rw [List.foldl_cons]
      rcases hreg : reg.lookup k with _ | v
      · have hstep : process_logo (reg, kept) (k, pth) =
            ((k, pth) :: reg, (k, pth) :: kept) := by
          simp [process_logo, hreg]
        rw [hstep, ih]
        by_cases heq : k = h
        · subst heq
          have hfind : List.find? (fun e => e.1 == k) ((k, pth) :: evs) =
              some (k, pth) := by
            rw [List.find?_cons_of_pos]
            simp
          rw [hfind]
          simp [hreg, List.lookup_cons]
        · have hfind : List.find? (fun e => e.1 == h) ((k, pth) :: evs) =
              List.find? (fun e => e.1 == h) evs := by
            rw [List.find?_cons_of_neg]
            simpa using heq
          rw [hfind]
          have hlk : ((k, pth) :: reg).lookup h = reg.lookup h := by
            rw [List.lookup_cons]
            have hbe : (h == k) = false := by
              simpa using fun hc => heq hc.symm
            rw [hbe]
          rw [hlk]
      · have hstep : process_logo (reg, kept) (k, pth) = (reg, kept) := by
          simp [process_logo, hreg]
        rw [hstep, ih]
        by_cases heq : k = h
        · subst heq
          have hfind : List.find? (fun e => e.1 == k) ((k, pth) :: evs) =
              some (k, pth) := by
            rw [List.find?_cons_of_pos]
            simp
          rw [hfind]
          simp [hreg]
        · have hfind : List.find? (fun e => e.1 == h) ((k, pth) :: evs) =
              List.find? (fun e => e.1 == h) evs := by
            rw [List.find?_cons_of_neg]
            simpa using heq
          rw [hfind]

/-- The kept files carry pairwise distinct hashes, and every kept hash is
registered. -/
theorem foldl_process_logo_kept_nodup :
    ∀ (events : List (String × String)) (reg kept : List (String × String)),
      ((kept.map Prod.fst).Nodup) →
      (∀ e ∈ kept, reg.lookup e.1 ≠ none) →
      (((events.foldl process_logo (reg, kept)).2).map Prod.fst).Nodup := by
  intro events
  induction events with
  | nil => intro reg kept h1 h2; exact h1
  | cons ev evs ih =>
      obtain ⟨k, pth⟩ := ev
      intro reg kept h1 h2
      rw [List.foldl_cons]
      rcases hreg : reg.lookup k with _ | v
      · have hstep : process_logo (reg, kept) (k, pth) =
            ((k, pth) :: reg, (k, pth) :: kept) := by
          simp [process_logo, hreg]
        rw [hstep]
        apply ih
        · simp only [List.map_cons]
          refine List.nodup_cons.mpr ⟨?_, h1⟩
          intro hmem
          obtain ⟨e, he, heq⟩ := List.mem_map.mp hmem
          exact h2 e he (by rw [heq]; exact hreg)
        · intro e he
          rcases List.mem_cons.mp he with rfl | he'
          · simp [List.lookup_cons]
          · intro hnone
            rw [List.lookup_cons] at hnone
            cases hbe : (e.1 == k) with
            | true => simp [hbe] at hnone
            | false =>
                rw [hbe] at hnone
                exact h2 e he' hnone
      · have hstep : process_logo (reg, kept) (k, pth) = (reg, kept) := by
          simp [process_logo, hreg]
        rw [hstep]
        exact ih reg kept h1 h2

/-- A list of pairs whose first components are pairwise distinct holds at
most one pair with any given first component. -/
theorem countP_fst_le_one :
    ∀ (kept : List (String × String)) (h : String),
      (kept.map Prod.fst).Nodup → kept.countP (fun e => e.1 == h) ≤ 1 := by
  intro kept
  induction kept with
  | nil => intro h _; simp
  | cons e t ih =>
      intro h hnd
      simp only [List.map_cons, List.nodup_cons] at hnd
      obtain ⟨hnot, hnd'⟩ := hnd
      by_cases heq : e.1 = h
      · rw [List.countP_cons_of_pos _ _ (by simpa using heq)]
        have hz : t.countP (fun x => x.1 == h) = 0 := by
          rw [List.countP_eq_zero]
          intro a ha hpa
          have ha1 : a.1 = h := by simpa using hpa
          exact hnot (List.mem_map.mpr ⟨a, ha, by rw [ha1, heq]⟩)
        rw [hz]
      · rw [List.countP_cons_of_neg _ _ (by simpa using heq)]
        exact ih h hnd'

/-- C3: after any serialized download run, the hash registry maps every hash
to the path of the first successfully hashed file carrying it (none when the
hash never occurred), and at most one file per hash value is kept - each
later event with an already-registered hash leaves the state unchanged (the
new file is deleted by `process_logo`), and each fresh hash registers its
file's path. -/
theorem run_dedup_registry_spec :
    ∀ (events : List (String × String)) (h : String),
      (run_dedup events).1.lookup h =
        ((events.find? (fun e => e.1 == h)).map Prod.snd) ∧
      (run_dedup events).2.countP (fun e => e.1 == h) ≤ 1 := by
  intro events h
  constructor
  · have hlk := foldl_process_logo_lookup events [] [] h
    simpa [run_dedup] using hlk
  · exact countP_fst_le_one _ h
      (foldl_process_logo_kept_nodup events [] [] (by simp) (by simp))

/-! Lemmas about brand selection. -/

/-- `first_seen_go` only depends on the membership of the seen set. -/
theorem first_seen_go_congr :
    ∀ (ds : List String) (s1 s2 : List String),
      (∀ x, x ∈ s1 ↔ x ∈ s2) → first_seen_go s1 ds = first_seen_go s2 ds := by
  intro ds
  induction ds with
  | nil => intro s1 s2 hiff; rfl
  | cons d ds ih =>
      intro s1 s2 hiff
      rw [first_seen_go, first_seen_go]
      by_cases hmem : extract_brand d ∈ s1
      · rw [if_pos hmem, if_pos ((hiff _).mp hmem)]
        exact ih s1 s2 hiff
      · rw [if_neg hmem, if_neg (fun hc => hmem ((hiff _).mpr hc))]
        rw [ih (extract_brand d :: s1) (extract_brand d :: s2) ?_]
        intro x
        simp only [List.mem_cons]
        exact or_congr Iff.rfl (hiff x)

/-- The brand dictionary's selected heads are: the accumulator's heads,
followed by the first-seen domain of each brand not yet in the
accumulator. -/
theorem foldl_add_domain_select :
    ∀ (ds : List String) (acc : List (String × List String)),
      (∀ g ∈ acc, g.2 ≠ []) →
      ((ds.foldl add_domain acc).map (fun g => g.2.headD "")) =
        acc.map (fun g => g.2.headD "") ++
          first_seen_go (acc.map Prod.fst) ds := by
  intro ds
  induction ds with
  | nil => intro acc hne; simp [first_seen_go]
  | cons d ds ih =>
      intro acc hne
      rw [List.foldl_cons, first_seen_go]
      by_cases hany : (acc.any (fun g => g.1 = extract_brand d)) = true
      · have hmem : extract_brand d ∈ acc.map Prod.fst := by
          obtain ⟨g, hg, hpg⟩ := List.any_eq_true.mp hany
          exact List.mem_map.mpr ⟨g, hg, of_decide_eq_true hpg⟩
        rw [if_pos hmem]
        have hstep : add_domain acc d =
            acc.map (fun g =>
              if g.1 = extract_brand d then (g.1, g.2 ++ [d]) else g) := by
          rw [add_domain, if_pos hany]
        rw [hstep, ih _ ?_]
        · congr 1
          · rw [List.map_map]
            apply List.map_congr_left
            intro g hg
            by_cases hgeq : g.1 = extract_brand d
            · rcases hgl : g.2 with _ | ⟨a, t⟩
              · exact absurd hgl (hne g hg)
              · simp [Function.comp, hgeq, hgl]
            · simp [Function.comp, hgeq]
          · have hkeys : (acc.map (fun g =>
                if g.1 = extract_brand d then (g.1, g.2 ++ [d]) else g)).map
                  Prod.fst = acc.map Prod.fst := by
              rw [List.map_map]
              apply List.map_congr_left
              intro g hg
              by_cases hgeq : g.1 = extract_brand d
              · simp [Function.comp, hgeq]
              · simp [Function.comp, hgeq]
            rw [hkeys]
        · intro g hg
          obtain ⟨g₀, hg₀, rfl⟩ := List.mem_map.mp hg
          by_cases hgeq : g₀.1 = extract_brand d
          · simp only [hgeq, if_pos rfl]
            simp
          · simp only [hgeq, if_neg hgeq]
            exact hne g₀ hg₀
      · have hmem : extract_brand d ∉ acc.map Prod.fst := by
          intro hmem
          obtain ⟨g, hg, hfst⟩ := List.mem_map.mp hmem
          exact hany (List.any_eq_true.mpr ⟨g, hg, decide_eq_true hfst⟩)
        rw [if_neg hmem]
        have hstep : add_domain acc d = acc ++ [(extract_brand d, [d])] := by
          rw [add_domain, if_neg hany]
        rw [hstep, ih _ ?_]
        · have hcongr : first_seen_go
              ((acc ++ [(extract_brand d, [d])]).map Prod.fst) ds =
                first_seen_go (extract_brand d :: acc.map Prod.fst) ds := by
            apply first_seen_go_congr
            intro x
            simp only [List.map_append, List.mem_append, List.mem_cons,
              List.map_cons, List.map_nil, List.mem_singleton]
            tauto
          rw [hcongr, List.map_append]
          simp
        · intro g hg
          rcases List.mem_append.mp hg with hg' | hg'
          · exact hne g hg'
          · rcases List.mem_singleton.mp hg' with rfl
            simp

/-- The brands of a first-seen selection are pairwise distinct and all new
relative to the seen set. -/
theorem first_seen_go_nodup :
    ∀ (ds : List String) (seen : List String),
      ((first_seen_go seen ds).map extract_brand).Nodup ∧
        ∀ b ∈ (first_seen_go seen ds).map extract_brand, b ∉ seen := by
  intro ds
  induction ds with
  | nil => intro seen; constructor
           · simp [first_seen_go]
           · simp [first_seen_go]
  | cons d ds ih =>
      intro seen
      rw [first_seen_go]
      by_cases hmem : extract_brand d ∈ seen
      · rw [if_pos hmem]
        exact ih seen
      · rw [if_neg hmem]
        obtain ⟨hnd, hnew⟩ := ih (extract_brand d :: seen)
        constructor
        · simp only [List.map_cons]
          refine List.nodup_cons.mpr ⟨?_, hnd⟩
          intro hc
          exact hnew _ hc (List.mem_cons_self _ _)
        · intro b hb
          simp only [List.map_cons, List.mem_cons] at hb
          rcases hb with rfl | hb
          · exact hmem
          · intro hc
            exact hnew b hb (List.mem_cons_of_mem _ hc)

/-- C5: brand extraction strips the top-level suffix and the trailing
dash/underscore-separated qualifier ("foo-bar.com" ↦ "foo",
"foobaz.net" ↦ "foobaz"); both example domains are kept; the selection
retains exactly the first-seen domain of every brand; and the selected
fetch set contains at most one domain per observed brand (its brand list
has no duplicate). -/
theorem select_domains_spec :
    extract_brand "foo-bar.com" = "foo" ∧
    extract_brand "foobaz.net" = "foobaz" ∧
    select_domains ["foo-bar.com", "foobaz.net"] =
      ["foo-bar.com", "foobaz.net"] ∧
    (∀ domains : List String, select_domains domains = first_seen_go [] domains) ∧
    (∀ domains : List String,
      ((select_domains domains).map extract_brand).Nodup) := by
  have hsel : ∀ domains : List String,
      select_domains domains = first_seen_go [] domains := by
    intro domains
    have h := foldl_add_domain_select domains [] (by simp)
    simpa [select_domains, brand_groups] using h
  refine ⟨by decide, by decide, ?_, hsel, ?_⟩
  · rw [hsel]
    decide
  · intro domains
    rw [hsel]
    exact (first_seen_go_nodup domains []).1

/-! Lemmas about the perceptual hash. -/

/-- Indexing into a flattened list of uniform-length rows. -/
theorem flatten_getElem?_uniform :
    ∀ (L : List (List Char)) (n k x : ℕ), (∀ l ∈ L, l.length = n) → x < n →
      L.flatten[k * n + x]? = L[k]?.bind (fun l => l[x]?) := by
  intro L
  induction L with
  | nil => intro n k x hlen hx; simp
  | cons l L ih =>
      intro n k x hlen hx
      have hl : l.length = n := hlen l (List.mem_cons_self _ _)
      cases k with
      | zero =>
          rw [List.flatten_cons]
          simp only [Nat.zero_mul, Nat.zero_add]
          rw [List.getElem?_append_left (by omega)]
          simp
      | succ k =>
          rw [List.flatten_cons]
          have hidx : (k + 1) * n + x = l.length + (k * n + x) := by
            rw [hl]; ring
          rw [hidx, List.getElem?_append_right (by omega)]
          have hsub : l.length + (k * n + x) - l.length = k * n + x := by omega
          rw [hsub,
            ih n k x (fun l' hl' => hlen l' (List.mem_cons_of_mem _ hl')) hx]
          simp

/-- The hash of an (n+1)-column, n-row image has exactly n * n bits. -/
theorem dhash_length (p : ℕ → ℕ → ℕ) (n : ℕ) : (dhash p n).length = n * n := by
  have h : (dhash p n).length = ((List.range n).map (fun y =>
      (List.range n).map (fun x =>
        if p x y > p (x + 1) y then '1' else '0'))).flatten.length := rfl
  rw [h, List.length_flatten, List.map_map]
  have h2 : (List.length ∘ fun y => List.map (fun x =>
      if p x y > p (x + 1) y then '1' else '0') (List.range n)) =
        fun _ => n := by
    funext y
    simp
  rw [h2, List.map_const', List.sum_replicate, List.length_range, smul_eq_mul]

/-- C2: the perceptual hash of the resized (N+1)×N luminance image is a
string of exactly N² bits (64 for the default N = 8), the bit at row-major
position y·N + x is 1 exactly when the pixel at column x is strictly
brighter than its right neighbor at column x+1 in row y, and the function
is deterministic: two images with identical decoded pixels hash to
identical strings. -/
theorem dhash_spec (p q : ℕ → ℕ → ℕ) (n : ℕ)
    (hpq : ∀ x y, x ≤ n → y < n → p x y = q x y) :
    (dhash p n).length = n * n ∧
    (dhash p 8).length = 64 ∧
    dhash p n = dhash q n ∧
    ∀ x y, x < n → y < n →
      (dhash p n).data[y * n + x]? =
        some (if p x y > p (x + 1) y then '1' else '0') := by
  refine ⟨dhash_length p n, by rw [dhash_length], ?_, ?_⟩
  · rw [dhash, dhash]
    apply congrArg String.mk
    apply congrArg List.flatten
    apply List.map_congr_left
    intro y hy
    have hy' : y < n := List.mem_range.mp hy
    apply List.map_congr_left
    intro x hx
    have hx' : x < n := List.mem_range.mp hx
    rw [hpq x y (le_of_lt hx') hy', hpq (x + 1) y (by omega) hy']
  · intro x y hx hy
    show ((List.range n).map (fun y =>
        (List.range n).map (fun x =>
          if p x y > p (x + 1) y then '1' else '0'))).flatten[y * n + x]? = _
    rw [flatten_getElem?_uniform _ n y x (by simp) hx]
    rw [List.getElem?_map, List.getElem?_range hy]
    show ((List.range n).map (fun x =>
      if p x y > p (x + 1) y then '1' else '0'))[x]? = _
    rw [List.getElem?_map, List.getElem?_range hx]
    rfl

/-- Witness for C2 at the pixel grid p(x, y) = x + y and N = 8. -/
theorem dhash_spec_witness :
    (dhash (fun x y => x + y) 8).length = 8 * 8 ∧
    (dhash (fun x y => x + y) 8).length = 64 ∧
    dhash (fun x y => x + y) 8 = dhash (fun x y => x + y) 8 ∧
    ∀ x y, x < 8 → y < 8 →
      (dhash (fun x y => x + y) 8).data[y * 8 + x]? =
        some (if (fun x y => x + y) x y > (fun x y => x + y) (x + 1) y
          then '1' else '0') :=
  dhash_spec (fun x y => x + y) (fun x y => x + y) 8 (fun x y hx hy => rfl)

/-! Lemmas about the near-dedup phase. -/

/-- The submitted pairs are exactly the positional pairs (i, j) with
i listed before j, provided the file listing has no duplicate names (as an
os.listdir result never does) and none is pre-checked. -/
theorem mem_msl_pairs :
    ∀ (l ch : List String), l.Nodup → (∀ f ∈ l, f ∉ ch) →
      ∀ a b : String,
        ((a, b) ∈ msl_pairs ch l ↔
          ∃ i j : ℕ, i < j ∧ l[i]? = some a ∧ l[j]? = some b) := by
  intro l
  induction l with
  | nil =>
      intro ch hnd hch a b
      simp [msl_pairs]
  | cons f rest ih =>
      intro ch hnd hch a b
      have hf : f ∉ ch := hch f (List.mem_cons_self _ _)
      obtain ⟨hfrest, hndrest⟩ := List.nodup_cons.mp hnd
      have hch' : ∀ x ∈ rest, x ∉ (f :: ch) := by
        intro x hx
        intro hc
        rcases List.mem_cons.mp hc with rfl | hc'
        · exact hfrest hx
        · exact hch x (List.mem_cons_of_mem _ hx) hc'
      rw [msl_pairs, if_neg hf]
      rw [List.mem_append]
      constructor
      · intro h
        rcases h with h | h
        · obtain ⟨g, hg, hgeq⟩ := List.mem_map.mp h
          obtain ⟨rfl, rfl⟩ : f = a ∧ g = b := by
            have h2 := (Prod.mk.injEq _ _ _ _).mp hgeq
            exact ⟨h2.1, h2.2⟩
          obtain ⟨j, hj⟩ := List.mem_iff_getElem?.mp hg
          exact ⟨0, j + 1, by omega, by simp, by simpa using hj⟩
        · obtain ⟨i, j, hij, ha, hb⟩ := (ih (f :: ch) hndrest hch' a b).mp h
          exact ⟨i + 1, j + 1, by omega, by simpa using ha, by simpa using hb⟩
      · rintro ⟨i, j, hij, ha, hb⟩
        cases i with
        | zero =>
            have hfa : f = a := by
              rw [List.getElem?_cons_zero] at ha
              exact Option.some.inj ha
            cases j with
            | zero => omega
            | succ j =>
                rw [List.getElem?_cons_succ] at hb
                refine Or.inl (List.mem_map.mpr ⟨b, List.getElem?_mem hb, ?_⟩)
                rw [hfa]
        | succ i =>
            cases j with
            | zero => omega
            | succ j =>
                rw [List.getElem?_cons_succ] at ha hb
                exact Or.inr ((ih (f :: ch) hndrest hch' a b).mpr
                  ⟨i, j, by omega, ha, hb⟩)

/-- C1: for a pair of surviving files at listing positions i < j whose
comparison succeeds with score s, the pair is submitted to the comparison
pool, and the second file j is declared a near-duplicate and moved to the
duplicates folder exactly when s is strictly greater than 49 and the first
3 characters of the two filenames are equal. -/
theorem near_dedup_pair_moved_iff (sim : SimOracle) (files : List String)
    (i j : ℕ) (a b : String) (s : ℚ) (hnd : files.Nodup) (hij : i < j)
    (ha : files[i]? = some a) (hb : files[j]? = some b)
    (hs : sim a b = Except.ok s) :
    (a, b) ∈ msl_pairs [] files ∧
      (check_similarity sim a b = some b ↔ (s > 49 ∧ take3 a = take3 b)) := by
  constructor
  · exact (mem_msl_pairs files [] hnd (by simp) a b).mpr ⟨i, j, hij, ha, hb⟩
  · rw [check_similarity, hs]
    show (if s > 49 ∧ take3 a = take3 b then some b else none) = some b ↔ _
    by_cases hcond : s > 49 ∧ take3 a = take3 b
    · rw [if_pos hcond]
      exact ⟨fun _ => hcond, fun _ => rfl⟩
    · rw [if_neg hcond]
      simp [hcond]

/-- Witness for C1: with similarity 60 the pair abc_1.png/abc_2.png is
submitted and moved (the phase relocates abc_2.png); with similarity 90 the
pair abc_1.png/xyz_1.png is not relocated (prefix mismatch). -/
theorem near_dedup_pair_moved_iff_witness :
    ((("abc_1.png" : String), ("abc_2.png" : String)) ∈
        msl_pairs [] ["abc_1.png", "abc_2.png"] ∧
      (check_similarity (fun _ _ => Except.ok 60) "abc_1.png" "abc_2.png" =
          some "abc_2.png" ↔
        ((60 : ℚ) > 49 ∧ take3 "abc_1.png" = take3 "abc_2.png"))) ∧
    move_similar_logos (fun _ _ => Except.ok 60) ["abc_1.png", "abc_2.png"] =
      ["abc_2.png"] ∧
    move_similar_logos (fun _ _ => Except.ok 90) ["abc_1.png", "xyz_1.png"] =
      [] :=
  ⟨near_dedup_pair_moved_iff (fun _ _ => Except.ok 60)
      ["abc_1.png", "abc_2.png"] 0 1 "abc_1.png" "abc_2.png" 60
      (by decide) (by omega) rfl rfl rfl,
    by decide, by decide⟩

/-- C9: every comparison failure (any exception, including a file vanished
under a concurrent move) is caught inside the comparison task and the pair
is skipped with no move; the phase is a total function of the listing, and
even a world in which every comparison fails completes, moving nothing. -/
theorem near_dedup_errors_skipped (sim : SimOracle) (i1 i2 e : String)
    (herr : sim i1 i2 = Except.error e) :
    check_similarity sim i1 i2 = none ∧
      ∀ (err : String → String → String) (files : List String),
        move_similar_logos (fun x y => Except.error (err x y)) files = [] := by
  constructor
  · rw [check_similarity, herr]
  · intro err files
    rw [move_similar_logos, List.filterMap_eq_nil_iff]
    intro p hp
    rw [check_similarity]

/-- Witness for C9 at a concrete failing comparison. -/
theorem near_dedup_errors_skipped_witness :
    check_similarity (fun _ _ => Except.error "vanished") "abc_1.png"
        "abc_2.png" = none ∧
      ∀ (err : String → String → String) (files : List String),
        move_similar_logos (fun x y => Except.error (err x y)) files = [] :=
  near_dedup_errors_skipped (fun _ _ => Except.error "vanished")
    "abc_1.png" "abc_2.png" "vanished" rfl

/-- C10: whatever the comparison outcomes, the earliest-listed file of each
3-character filename-prefix group is never moved to the duplicates folder:
a file is only moved as the second component of a submitted pair whose
first component is listed earlier and shares its first 3 characters. -/
theorem near_dedup_first_of_prefix_group_survives (sim : SimOracle)
    (files : List String) (k : ℕ) (f : String)
    (hnd : files.Nodup) (hk : files[k]? = some f)
    (hfirst : ∀ i g, i < k → files[i]? = some g → take3 g ≠ take3 f) :
    f ∉ move_similar_logos sim files := by
  intro hmem
  rw [move_similar_logos] at hmem
  obtain ⟨p, hp, hcheck⟩ := List.mem_filterMap.mp hmem
  rcases hsim : sim p.1 p.2 with e | s
  · rw [check_similarity, hsim] at hcheck
    cases hcheck
  · rw [check_similarity, hsim] at hcheck
    have hcheck2 : (if s > 49 ∧ take3 p.1 = take3 p.2 then some p.2 else none) =
        some f := hcheck
    by_cases hcond : s > 49 ∧ take3 p.1 = take3 p.2
    · rw [if_pos hcond] at hcheck2
      have hp2 : p.2 = f := Option.some.inj hcheck2
      have hp' : (p.1, p.2) ∈ msl_pairs [] files := by
        rw [show (p.1, p.2) = p from rfl]
        exact hp
      obtain ⟨i, j, hij, ha, hb⟩ :=
        (mem_msl_pairs files [] hnd (by simp) p.1 p.2).mp hp'
      have hjlen : j < files.length :=
        (List.getElem?_eq_some_iff.mp hb).1
      have hjk : j = k := by
        apply List.getElem?_inj hjlen hnd
        rw [hb, hk, hp2]
      have hne := hfirst i p.1 (by omega) ha
      rw [hp2] at hcond
      exact hne hcond.2
    · rw [if_neg hcond] at hcheck2
      cases hcheck2

/-- Witness for C10: the earliest (and only) file of the xyz prefix group is
not moved. -/
theorem near_dedup_first_survives_witness :
    "xyz_1.png" ∉
      move_similar_logos (fun _ _ => Except.ok 90)
        ["abc_1.png", "xyz_1.png"] :=
  near_dedup_first_of_prefix_group_survives (fun _ _ => Except.ok 90)
    ["abc_1.png", "xyz_1.png"] 1 "xyz_1.png" (by decide) rfl
    (by
      intro i g hi hg
      interval_cases i
      rw [List.getElem?_cons_zero] at hg
      cases hg
      decide)

/-! Lemmas about the histogram correlation. -/

/-- A sum of squares is nonnegative. -/
theorem sum_sq_nonneg (h : List ℚ) : 0 ≤ (h.map (fun v => v * v)).sum := by
  apply List.sum_nonneg
  intro x hx
  obtain ⟨v, hv, rfl⟩ := List.mem_map.mp hx
  exact mul_self_nonneg v

/-- Discrete Cauchy-Schwarz with the all-ones vector: the squared sum is at
most the length times the sum of squares. -/
theorem sq_sum_le_length_mul_sum_sq :
    ∀ h : List ℚ, h.sum * h.sum ≤ (h.length : ℚ) * (h.map (fun v => v * v)).sum := by
  intro h
  induction h with
  | nil => simp
  | cons a t ih =>
      have hQ : 0 ≤ (t.map (fun v => v * v)).sum := sum_sq_nonneg t
      rcases eq_or_ne t [] with rfl | hne
      · norm_num
      · have hpos : (0 : ℚ) < (t.length : ℚ) := by
          exact_mod_cast List.length_pos.mpr hne
        have key : 0 ≤ ((t.length : ℚ) + 1) *
            ((t.length : ℚ) * (t.map (fun v => v * v)).sum -
              t.sum * t.sum) := by
          apply mul_nonneg
          · positivity
          · linarith
        simp only [List.sum_cons, List.map_cons, List.length_cons]
        push_cast
        nlinarith [ih, hQ, hpos, key,
          sq_nonneg ((t.length : ℚ) * a - t.sum)]

/-- Correlating a histogram with itself gives exactly 1: the numerator
equals the common variance term v, the denominator is v², and either v = 0
(the epsilon branch returns 1) or v > 0 and v / sqrt(v²) = 1. -/
theorem compareHist_correl_self (h : List ℚ) : compareHist_correl h h = 1 := by
  have hz : List.zipWith (fun a b => a * b) h h = h.map (fun v => v * v) :=
    List.zipWith_same _ _
  simp only [compareHist_correl, hz]
  set v := (h.map (fun v => v * v)).sum -
    h.sum * h.sum / ((h.length : ℚ)) with hv
  by_cases hzero : v * v = 0
  · rw [if_pos hzero]
  · rw [if_neg hzero]
    have hvne : v ≠ 0 := by
      intro hc
      exact hzero (by rw [hc]; ring)
    have hvpos : 0 < v := by
      rcases eq_or_ne h [] with rfl | hne
      · exact absurd (by simp [hv]) hvne
      · have hn : (0 : ℚ) < (h.length : ℚ) := by
          exact_mod_cast List.length_pos.mpr hne
        have hcs := sq_sum_le_length_mul_sum_sq h
        have hnn : 0 ≤ v := by
          rw [hv, sub_nonneg, div_le_iff₀ hn]
          linarith
        exact lt_of_le_of_ne hnn (Ne.symm hvne)
    have hsqrt : Rat.sqrt (v * v) = v := by
      rw [Rat.sqrt_eq, abs_of_pos hvpos]
    rw [hsqrt, div_self hvne]

/-- C7: comparing any image with itself yields similarity exactly 100 in the
exact-arithmetic model (approximately 100 in floating point): the
(normalized) histogram of the image correlates perfectly with itself and
the remap (corr+1)/2·100 sends correlation 1 to 100. -/
theorem similarity_self_eq_100 (hist : List ℚ) :
    calculate_histogram_similarity hist hist = 100 := by
  rw [calculate_histogram_similarity, compareHist_correl_self]
  norm_num

end LogoAnalyzer
